import Mathlib

/-!
Verification development for the tiered agent-memory core
(`agent_memory_system/memory_system.py`): memory entries, in-memory stores,
summarization/compression, relevance-scored retrieval, the combined
long/short-term orchestrator with capacity eviction and consolidation, and
the save/load persistence layer.

Modelling conventions:
* Python floats (timestamps, scores) are embedded as exact rationals `ℚ`.
  The two float products in `consolidate_memories` (`capacity * 0.8` and
  `int(capacity * 0.3)`) are embedded as the exact comparisons
  `4*cap < 5*len` and `3*cap / 10` (natural floor division); for every
  realistic capacity the double-precision computation agrees with the exact
  one since the relative error of a single rounded multiplication is below
  the distance of `3c/10` and `4c/5` to the nearest crossing point.
* Python dicts keyed by id are embedded as insertion-ordered lists of
  entries: `add` overwrites in place or appends, `delete` filters by id.
* `uuid.uuid4()` and `time.time()` are nondeterministic inputs; they are
  passed explicitly (`fresh : ℕ → String` supplies one fresh id per
  synthesized summary, `now : ℚ` the clock reading).
* `list.sort(key=..., reverse=...)` is a stable sort; it is embedded as a
  stable insertion sort with the corresponding total boolean comparison.
* Python `int` arguments (retrieval limits) are embedded as `Int`, with
  floor division (`Int.fdiv`) and Python slice semantics (`pySlice`),
  including the negative-index behaviour of `l[:n]` for `n < 0`.
-/

/-- `MemoryType` enum of the source (six variants). -/
inductive MemoryType where
  | SHORT_TERM
  | LONG_TERM
  | WORKING
  | EPISODIC
  | SEMANTIC
  | PROCEDURAL
deriving DecidableEq

/-- `.value` of the `MemoryType` enum (the serialized string). -/
def MemoryType.value : MemoryType → String
  | .SHORT_TERM => "short_term"
  | .LONG_TERM => "long_term"
  | .WORKING => "working"
  | .EPISODIC => "episodic"
  | .SEMANTIC => "semantic"
  | .PROCEDURAL => "procedural"

/-- `MemoryType(string)` enum reconstruction; `none` models the `ValueError`. -/
def MemoryType.ofValue : String → Option MemoryType
  | "short_term" => some .SHORT_TERM
  | "long_term" => some .LONG_TERM
  | "working" => some .WORKING
  | "episodic" => some .EPISODIC
  | "semantic" => some .SEMANTIC
  | "procedural" => some .PROCEDURAL
  | _ => none

/-- `MemoryPriority` enum of the source. -/
inductive MemoryPriority where
  | LOW
  | MEDIUM
  | HIGH
  | CRITICAL
deriving DecidableEq

/-- `.value` of the `MemoryPriority` enum (1..4). -/
def MemoryPriority.value : MemoryPriority → ℕ
  | .LOW => 1
  | .MEDIUM => 2
  | .HIGH => 3
  | .CRITICAL => 4

/-- `MemoryPriority(int)` enum reconstruction; `none` models the `ValueError`. -/
def MemoryPriority.ofValue : ℕ → Option MemoryPriority
  | 1 => some .LOW
  | 2 => some .MEDIUM
  | 3 => some .HIGH
  | 4 => some .CRITICAL
  | _ => none

/-- Values storable in an entry's `context` dict. -/
inductive CtxVal where
  | str (s : String)
  | bool (b : Bool)
  | num (q : ℚ)
deriving DecidableEq

/-- A `context` dict: insertion-ordered association list with unique keys. -/
abbrev Ctx := List (String × CtxVal)

/-- `MemoryEntry` dataclass (after `__post_init__` normalization). -/
structure MemoryEntry where
  id : String
  content : String
  memory_type : MemoryType
  priority : MemoryPriority
  timestamp : ℚ
  access_count : ℕ
  last_accessed : ℚ
  context : Ctx
  embedding : Option (List ℚ)
  summary : Option String
  tags : List String
deriving DecidableEq

/-- The `MemoryEntry(...)` constructor followed by `__post_init__`:
`context=None` becomes `{}`, `tags=None` becomes `[]`, and
`last_accessed == 0` is replaced by `timestamp`. -/
def mkMemoryEntry (id content : String) (memory_type : MemoryType)
    (priority : MemoryPriority) (timestamp : ℚ) (access_count : ℕ)
    (last_accessed : ℚ) (context : Option Ctx) (embedding : Option (List ℚ))
    (summary : Option String) (tags : Option (List String)) : MemoryEntry :=
  { id := id
    content := content
    memory_type := memory_type
    priority := priority
    timestamp := timestamp
    access_count := access_count
    last_accessed := if last_accessed = 0 then timestamp else last_accessed
    context := context.getD []
    embedding := embedding
    summary := summary
    tags := tags.getD [] }

/-- Serialized form of an entry (`MemoryEntry.to_dict`): enums as values. -/
structure EntryDict where
  id : String
  content : String
  memory_type : String
  priority : ℕ
  timestamp : ℚ
  access_count : ℕ
  last_accessed : ℚ
  context : Ctx
  embedding : Option (List ℚ)
  summary : Option String
  tags : List String
deriving DecidableEq

/-- `MemoryEntry.to_dict`: `asdict` plus enum `.value` projection. -/
def MemoryEntry.to_dict (e : MemoryEntry) : EntryDict :=
  { id := e.id
    content := e.content
    memory_type := e.memory_type.value
    priority := e.priority.value
    timestamp := e.timestamp
    access_count := e.access_count
    last_accessed := e.last_accessed
    context := e.context
    embedding := e.embedding
    summary := e.summary
    tags := e.tags }

/-- `MemoryEntry.from_dict`: reconstruct the enums from their stored values
and rebuild the dataclass (running `__post_init__`); `none` models the
`ValueError` raised on an unknown enum value. -/
def MemoryEntry.from_dict (d : EntryDict) : Option MemoryEntry :=
  match MemoryType.ofValue d.memory_type, MemoryPriority.ofValue d.priority with
  | some mt, some p =>
      some (mkMemoryEntry d.id d.content mt p d.timestamp d.access_count
        d.last_accessed (some d.context) d.embedding d.summary (some d.tags))
  | _, _ => none

/-- `InMemoryStore.add`: Python-dict insert, overwriting in place by id or
appending new ids at the end.  (The keyword index the source also updates is
write-only: no modelled operation ever reads it, `search` scans the live
entry map directly.) -/
def storeAdd (e : MemoryEntry) (st : List MemoryEntry) : List MemoryEntry :=
  if st.any (fun x => decide (x.id = e.id)) then
    st.map (fun x => if x.id = e.id then e else x)
  else st ++ [e]

/-- `InMemoryStore.delete`: remove the entry with the given id. -/
def storeDelete (mid : String) (st : List MemoryEntry) : List MemoryEntry :=
  st.filter (fun x => decide (x.id ≠ mid))

/-- Stable insertion step: place `x` before the first `y` with `le x y`. -/
def insertLe {α : Type} (le : α → α → Bool) (x : α) : List α → List α
  | [] => [x]
  | y :: ys => if le x y then x :: y :: ys else y :: insertLe le x ys

/-- Stable sort (model of Python `list.sort(key=...)`): with
`le a b = (key a ≤ key b)` this is a stable ascending sort, with
`le a b = (key a ≥ key b)` a stable descending sort (`reverse=True`). -/
def stableSort {α : Type} (le : α → α → Bool) (l : List α) : List α :=
  l.foldr (insertLe le) []

/-- Python slice `l[:n]` for an `int` bound: nonnegative `n` takes a prefix,
negative `n` drops `-n` elements from the end. -/
def pySlice {α : Type} (n : Int) (l : List α) : List α :=
  if 0 ≤ n then l.take n.toNat else l.take ((l.length : Int) + n).toNat

/-- Python `str.lower()` (ASCII case mapping, like `String.toLower`),
written over the character list so that it evaluates by kernel reduction. -/
def pyLower (s : String) : String :=
  String.mk (s.data.map Char.toLower)

/-- Python `needle in haystack` on strings: contiguous-substring test. -/
def pyIn (needle hay : String) : Bool :=
  decide (needle.data <:+: hay.data)

/-- The `reverse=True` sort key of `InMemoryStore.search` and
`retrieve_memories`: descending by `(priority.value, access_count)`. -/
def searchKeyGe (a b : MemoryEntry) : Bool :=
  decide (b.priority.value < a.priority.value ∨
    (a.priority.value = b.priority.value ∧ b.access_count ≤ a.access_count))

/-- `InMemoryStore.search`: case-insensitive substring match against content
or any tag, sorted descending by `(priority.value, access_count)`, sliced to
`limit`. -/
def InMemoryStore.search (query : String) (limit : Int)
    (st : List MemoryEntry) : List MemoryEntry :=
  let query_lower := pyLower query
  let results := st.filter (fun e =>
    pyIn query_lower (pyLower e.content) ||
      e.tags.any (fun tag => pyIn query_lower (pyLower tag)))
  pySlice limit (stableSort searchKeyGe results)

/-- `MemorySummarizer.summarize` with the summarizer's `max_length`. -/
def summarize (max_length : ℕ) (content : String) : String :=
  if content.length ≤ max_length then content
  else
    let sentences := content.splitOn ". "
    if sentences.length ≤ 2 then content
    else sentences.headD "" ++ ". [...] " ++ sentences.getLastD "" ++ "."

/-- `memory.context.get('session', 'default')`: the grouping key used by
`compress_memories`. -/
def contextKey (m : MemoryEntry) : CtxVal :=
  (List.lookup "session" m.context).getD (CtxVal.str "default")

/-- First-seen-order deduplication: the key order of the Python `groups`
dict built by `compress_memories`. -/
def firstSeen : List CtxVal → List CtxVal
  | [] => []
  | k :: ks => k :: (firstSeen ks).filter (fun x => decide (x ≠ k))

/-- The `reverse=True` priority sort inside `compress_memories`:
stable descending by `priority.value`. -/
def prioGe (a b : MemoryEntry) : Bool :=
  decide (b.priority.value ≤ a.priority.value)

/-- The synthetic summary entry `compress_memories` creates for an
oversized group: fresh id `sid`, timestamp `now`, count-prefixed summary of
the `" | "`-joined contents, `long_term`/`medium`, marker context. -/
def mkSummary (sid : String) (now : ℚ) (key : CtxVal)
    (group : List MemoryEntry) (max_length : ℕ) : MemoryEntry :=
  mkMemoryEntry sid
    ("Summary of " ++ toString group.length ++ " memories: " ++
      summarize max_length (String.intercalate " | " (group.map (fun m => m.content))))
    MemoryType.LONG_TERM MemoryPriority.MEDIUM now 0 0
    (some [("session", key), ("compressed", CtxVal.bool true)]) none none none

/-- The per-group loop of `compress_memories`, iterating the `groups` dict
in first-seen key order; `c` counts the fresh ids already consumed. -/
def compressGroups (max_length : ℕ) (fresh : ℕ → String) (now : ℚ)
    (ms : List MemoryEntry) : List CtxVal → ℕ → List MemoryEntry
  | [], _ => []
  | k :: ks, c =>
    let g := ms.filter (fun m => decide (contextKey m = k))
    if 3 < g.length then
      (mkSummary (fresh c) now k g max_length :: (stableSort prioGe g).take 2) ++
        compressGroups max_length fresh now ms ks (c + 1)
    else g ++ compressGroups max_length fresh now ms ks c

/-- `MemorySummarizer.compress_memories`: identity on at most three entries,
otherwise group by session key and replace each group of more than three by
a synthetic summary plus its top-2 entries by priority. -/
def compress_memories (max_length : ℕ) (fresh : ℕ → String) (now : ℚ)
    (memories : List MemoryEntry) : List MemoryEntry :=
  if memories.length ≤ 3 then memories
  else compressGroups max_length fresh now memories
    (firstSeen (memories.map contextKey)) 0

/-- Lower-cased whitespace-split token set of a string (Python
`set(s.lower().split())`), represented as a duplicate-free list. -/
def wordSet (s : String) : List String :=
  (((pyLower s).split Char.isWhitespace).filter (fun t => decide (t ≠ ""))).dedup

/-- The context-match count of `_calculate_relevance_score`:
`sum(1 for k, v in context.items() if k in memory.context and memory.context[k] == v)`. -/
def contextMatchCount (ctx mctx : Ctx) : ℕ :=
  ctx.countP (fun kv => decide (List.lookup kv.1 mctx = some kv.2))

/-- `MemoryRetriever._calculate_relevance_score`, accumulated exactly as in
the source (keyword overlap, priority, recency, frequency, and the context
term guarded by Python truthiness of both dicts). -/
def calculate_relevance_score (now : ℚ) (query : String) (memory : MemoryEntry)
    (context : Option Ctx) : ℚ :=
  let score : ℚ := 0
  let query_words := wordSet query
  let content_words := wordSet memory.content
  let word_overlap : ℕ := (query_words.inter content_words).length
  let score := score + (word_overlap : ℚ) * (3 / 10)
  let score := score + (memory.priority.value : ℚ) * (2 / 10)
  let age := now - memory.timestamp
  let recency_score := max 0 (1 - age / ((30 : ℚ) * 24 * 60 * 60))
  let score := score + recency_score * (2 / 10)
  let frequency_score := min 1 ((memory.access_count : ℚ) / 10)
  let score := score + frequency_score * (1 / 10)
  match context with
  | some ctx =>
      if ctx ≠ [] ∧ memory.context ≠ [] then
        score + (contextMatchCount ctx memory.context : ℚ) * (2 / 10)
      else score
  | none => score

/-- `MemoryRetriever.retrieve_relevant`: fetch `2*limit` candidates from the
bound store's `search`, score them, sort descending by score (stable), slice
to `limit`, and project the entries back out. -/
def retrieve_relevant (now : ℚ) (query : String) (context : Option Ctx)
    (limit : Int) (store : List MemoryEntry) : List MemoryEntry :=
  let candidates := InMemoryStore.search query (limit * 2) store
  let scored_memories := candidates.map
    (fun m => (m, calculate_relevance_score now query m context))
  let sorted := stableSort (fun a b => decide (b.2 ≤ a.2)) scored_memories
  (pySlice limit sorted).map (fun p => p.1)

/-- `LongShortTermMemory` state: two stores, the two soft capacities, and
the session token. -/
structure LongShortTermMemory where
  short_term_store : List MemoryEntry
  long_term_store : List MemoryEntry
  short_term_capacity : ℕ
  long_term_capacity : ℕ
  current_session : String
deriving DecidableEq

/-- A freshly constructed `LongShortTermMemory(...)`: both stores empty. -/
def LongShortTermMemory.mk0 (c1 c2 : ℕ) (session : String) :
    LongShortTermMemory :=
  { short_term_store := []
    long_term_store := []
    short_term_capacity := c1
    long_term_capacity := c2
    current_session := session }

/-- Python `x or default` for an optional list argument: `None` and the
empty list are both falsy and replaced by the default. -/
def pyOr {α : Type} (v : Option (List α)) (d : List α) : List α :=
  match v with
  | none => d
  | some l => if l.isEmpty then d else l

/-- Ascending eviction key of `_manage_short_term_capacity`:
`(priority.value, timestamp)`. -/
def shortKeyLe (a b : MemoryEntry) : Bool :=
  decide (a.priority.value < b.priority.value ∨
    (a.priority.value = b.priority.value ∧ a.timestamp ≤ b.timestamp))

/-- Ascending eviction key of `_manage_long_term_capacity`:
`(priority.value, access_count, timestamp)`. -/
def longKeyLe (a b : MemoryEntry) : Bool :=
  decide (a.priority.value < b.priority.value ∨
    (a.priority.value = b.priority.value ∧
      (a.access_count < b.access_count ∨
        (a.access_count = b.access_count ∧ a.timestamp ≤ b.timestamp))))

/-- `LongShortTermMemory._manage_short_term_capacity`: when over capacity,
delete the excess from the front of the `(priority, timestamp)`-ascending
sort. -/
def manage_short_term_capacity (s : LongShortTermMemory) :
    LongShortTermMemory :=
  if s.short_term_capacity < s.short_term_store.length then
    let memories := stableSort shortKeyLe s.short_term_store
    let to_remove :=
      memories.take (s.short_term_store.length - s.short_term_capacity)
    { s with short_term_store :=
        to_remove.foldl (fun st m => storeDelete m.id st) s.short_term_store }
  else s

/-- `LongShortTermMemory._manage_long_term_capacity`: when over capacity,
delete the excess from the front of the
`(priority, access_count, timestamp)`-ascending sort. -/
def manage_long_term_capacity (s : LongShortTermMemory) :
    LongShortTermMemory :=
  if s.long_term_capacity < s.long_term_store.length then
    let memories := stableSort longKeyLe s.long_term_store
    let to_remove :=
      memories.take (s.long_term_store.length - s.long_term_capacity)
    { s with long_term_store :=
        to_remove.foldl (fun st m => storeDelete m.id st) s.long_term_store }
  else s

/-- `LongShortTermMemory.add_memory`: build the entry (fresh id `freshId`,
timestamp `now`, defaulted context/tags with Python truthiness), route it to
the store selected by `memory_type`, run that store's capacity manager, and
return the new id with the new state. -/
def add_memory (freshId : String) (now : ℚ) (content : String)
    (memory_type : MemoryType) (priority : MemoryPriority)
    (context : Option Ctx) (tags : Option (List String))
    (s : LongShortTermMemory) : String × LongShortTermMemory :=
  let entry := mkMemoryEntry freshId content memory_type priority now 0 0
    (some (pyOr context [("session", CtxVal.str s.current_session)]))
    none none (some (pyOr tags []))
  if memory_type = MemoryType.SHORT_TERM then
    (entry.id, manage_short_term_capacity
      { s with short_term_store := storeAdd entry s.short_term_store })
  else
    (entry.id, manage_long_term_capacity
      { s with long_term_store := storeAdd entry s.long_term_store })

/-- `LongShortTermMemory.retrieve_memories`: relevance-ranked long-term
results (`limit` candidates, no caller context), optionally the short-term
store's keyword search (`limit//2` candidates), re-sorted descending by
`(priority.value, access_count)` and sliced to `limit`. -/
def retrieve_memories (now : ℚ) (query : String) (include_short_term : Bool)
    (limit : Int) (s : LongShortTermMemory) : List MemoryEntry :=
  let memories : List MemoryEntry := []
  let long_term_memories :=
    retrieve_relevant now query none limit s.long_term_store
  let memories := memories ++ long_term_memories
  let memories :=
    if include_short_term then
      memories ++ InMemoryStore.search query (Int.fdiv limit 2) s.short_term_store
    else memories
  pySlice limit (stableSort searchKeyGe memories)

/-- Ascending timestamp comparison (the `consolidate_memories` sort). -/
def tsLe (a b : MemoryEntry) : Bool :=
  decide (a.timestamp ≤ b.timestamp)

/-- `LongShortTermMemory.consolidate_memories`: when the short-term store
holds more than `0.8 * capacity` entries, take the oldest
`int(0.3 * capacity)` by timestamp, compress them (summarizer max length
500), retype every compressed entry to `long_term`, add each to the
long-term store and delete its id from the short-term store. -/
def consolidate_memories (fresh : ℕ → String) (now : ℚ)
    (s : LongShortTermMemory) : LongShortTermMemory :=
  let short_term_memories := s.short_term_store
  if 4 * s.short_term_capacity < 5 * short_term_memories.length then
    let sorted := stableSort tsLe short_term_memories
    let to_consolidate := sorted.take (3 * s.short_term_capacity / 10)
    let compressed := (compress_memories 500 fresh now to_consolidate).map
      (fun m => { m with memory_type := MemoryType.LONG_TERM })
    { s with
      long_term_store :=
        compressed.foldl (fun st m => storeAdd m st) s.long_term_store
      short_term_store :=
        compressed.foldl (fun st m => storeDelete m.id st) s.short_term_store }
  else s

/-- The persisted file (`save_to_file` JSON document), structurally. -/
structure SavedData where
  short_term : List EntryDict
  long_term : List EntryDict
  current_session : String
deriving DecidableEq

/-- `LongShortTermMemory.save_to_file`: serialize both stores and the
session token. -/
def save_to_file (s : LongShortTermMemory) : SavedData :=
  { short_term := s.short_term_store.map MemoryEntry.to_dict
    long_term := s.long_term_store.map MemoryEntry.to_dict
    current_session := s.current_session }

/-- The per-store loading loop of `load_from_file`: deserialize each entry
and `add` it; `none` models an uncaught deserialization `ValueError`. -/
def loadEntries (ds : List EntryDict) (st : List MemoryEntry) :
    Option (List MemoryEntry) :=
  ds.foldlM (fun acc d => (MemoryEntry.from_dict d).map (fun e => storeAdd e acc)) st

/-- `LongShortTermMemory.load_from_file`: a missing file (`data = none`) is
caught and leaves the state untouched; otherwise both stores are loaded
additively and the session token replaced. -/
def load_from_file (data : Option SavedData) (s : LongShortTermMemory) :
    Option LongShortTermMemory :=
  match data with
  | none => some s
  | some d => do
      let st ← loadEntries d.short_term s.short_term_store
      let lt ← loadEntries d.long_term s.long_term_store
      some { s with
        short_term_store := st
        long_term_store := lt
        current_session := d.current_session }

/-- The relevance-score formula as the specification states it: keyword
overlap times 0.3, priority value times 0.2, a 30-day linear recency decay
floored at zero times 0.2, an access-frequency term capped at 1 times 0.1,
and the shared-context-key count times 0.2 (zero when the caller context is
absent or empty). -/
def relevanceScoreSpec (now : ℚ) (query : String) (memory : MemoryEntry)
    (context : Option Ctx) : ℚ :=
  (((wordSet query).inter (wordSet memory.content)).length : ℚ) * (3 / 10) +
    (memory.priority.value : ℚ) * (2 / 10) +
    max 0 (1 - (now - memory.timestamp) / ((30 : ℚ) * 86400)) * (2 / 10) +
    min 1 ((memory.access_count : ℚ) / 10) * (1 / 10) +
    (match context with
     | none => 0
     | some c => if c = [] then 0
        else (contextMatchCount c memory.context : ℚ)) * (2 / 10)

/-- The retrieval pipeline as the specification states it: relevance-ranked
long-term results (`limit` candidates), concatenated with the short-term
keyword search (`limit//2` candidates) when requested, re-sorted descending
by `(priority.value, access_count)` and truncated to `limit`. -/
def retrieveMemoriesSpec (now : ℚ) (query : String) (include_short_term : Bool)
    (limit : Int) (s : LongShortTermMemory) : List MemoryEntry :=
  pySlice limit (stableSort searchKeyGe
    (retrieve_relevant now query none limit s.long_term_store ++
      (if include_short_term then
        InMemoryStore.search query (Int.fdiv limit 2) s.short_term_store
       else [])))

/-- The batch `consolidate_memories` feeds into compression: the oldest
`int(0.3 * capacity)` short-term entries by timestamp. -/
def toConsolidate (s : LongShortTermMemory) : List MemoryEntry :=
  (stableSort tsLe s.short_term_store).take (3 * s.short_term_capacity / 10)

/-- The session group of `m` within a batch: all batch entries sharing
`m`'s `context.get('session', 'default')` key. -/
def sessionGroup (batch : List MemoryEntry) (m : MemoryEntry) :
    List MemoryEntry :=
  batch.filter (fun x => decide (contextKey x = contextKey m))

/-- One `add_memory` call's arguments (with its nondeterministic fresh id
and clock reading made explicit). -/
structure AddCall where
  freshId : String
  now : ℚ
  content : String
  memory_type : MemoryType
  priority : MemoryPriority
  context : Option Ctx
  tags : Option (List String)

/-- Run a sequence of `add_memory` calls. -/
def runAdds (calls : List AddCall) (s : LongShortTermMemory) :
    LongShortTermMemory :=
  calls.foldl (fun st c =>
    (add_memory c.freshId c.now c.content c.memory_type c.priority
      c.context c.tags st).2) s

/-- An injective supply of fresh ids (distinct from every id used by the
concrete states below, which never contain the character `u`). -/
def freshU (j : ℕ) : String := String.mk (List.replicate (j + 1) 'u')

/-- Entry builder for concrete states (creation-normalized:
`last_accessed = timestamp`, no accesses yet). -/
def mkE (i : String) (mt : MemoryType) (ts : ℚ) (p : MemoryPriority)
    (c : String) (ctx : Ctx) : MemoryEntry :=
  { id := i
    content := c
    memory_type := mt
    priority := p
    timestamp := ts
    access_count := 0
    last_accessed := ts
    context := ctx
    embedding := none
    summary := none
    tags := [] }

/-- Context dict `{'session': 's1'}`. -/
def ctxS1 : Ctx := [("session", CtxVal.str "s1")]

/-- Context dict `{'session': 's2'}`. -/
def ctxS2 : Ctx := [("session", CtxVal.str "s2")]

/-- Memory state with `short_term_capacity = 14` and 12 short-term entries
whose oldest four share session `s1`: consolidation picks the oldest
`int(0.3*14) = 4` entries (the store holds more than `0.8*14 = 11.2`). -/
def consolidateCounterState : LongShortTermMemory :=
  { short_term_store :=
      [mkE "m1" .SHORT_TERM 1 .LOW "a" ctxS1,
       mkE "m2" .SHORT_TERM 2 .LOW "b" ctxS1,
       mkE "m3" .SHORT_TERM 3 .HIGH "c" ctxS1,
       mkE "m4" .SHORT_TERM 4 .HIGH "d" ctxS1,
       mkE "m5" .SHORT_TERM 5 .MEDIUM "p" ctxS2,
       mkE "m6" .SHORT_TERM 6 .MEDIUM "q" ctxS2,
       mkE "m7" .SHORT_TERM 7 .MEDIUM "r" ctxS2,
       mkE "m8" .SHORT_TERM 8 .MEDIUM "s" ctxS2,
       mkE "m9" .SHORT_TERM 9 .MEDIUM "t" ctxS2,
       mkE "m10" .SHORT_TERM 10 .MEDIUM "u0" ctxS2,
       mkE "m11" .SHORT_TERM 11 .MEDIUM "v" ctxS2,
       mkE "m12" .SHORT_TERM 12 .MEDIUM "w" ctxS2]
    long_term_store := []
    short_term_capacity := 14
    long_term_capacity := 1000
    current_session := "sess" }

/-- Memory state with `short_term_capacity = 4` and four short-term entries
(no explicit sessions), exceeding the `0.8*4` consolidation threshold; the
consolidation batch is the single oldest entry. -/
def consolidateWitnessState : LongShortTermMemory :=
  { short_term_store :=
      [mkE "a" .SHORT_TERM 1 .MEDIUM "wa" [],
       mkE "b" .SHORT_TERM 2 .MEDIUM "wb" [],
       mkE "c" .SHORT_TERM 3 .MEDIUM "wc" [],
       mkE "d" .SHORT_TERM 4 .MEDIUM "wd" []]
    long_term_store := []
    short_term_capacity := 4
    long_term_capacity := 1000
    current_session := "sess" }

/-- State produced by three `add_memory` calls (priorities low, low, high,
timestamps 1, 2, 3) against `short_term_capacity = 2`. -/
def scenarioAState : LongShortTermMemory :=
  (add_memory "i3" 3 "c3" .SHORT_TERM .HIGH none none
    (add_memory "i2" 2 "c2" .SHORT_TERM .LOW none none
      (add_memory "i1" 1 "c1" .SHORT_TERM .LOW none none
        (LongShortTermMemory.mk0 2 1000 "sess")).2).2).2

/-- State produced by six identical-priority `add_memory` calls with
increasing timestamps against `short_term_capacity = 5`. -/
def scenarioBState : LongShortTermMemory :=
  (add_memory "i6" 6 "c" .SHORT_TERM .MEDIUM none none
    (add_memory "i5" 5 "c" .SHORT_TERM .MEDIUM none none
      (add_memory "i4" 4 "c" .SHORT_TERM .MEDIUM none none
        (add_memory "i3" 3 "c" .SHORT_TERM .MEDIUM none none
          (add_memory "i2" 2 "c" .SHORT_TERM .MEDIUM none none
            (add_memory "i1" 1 "c" .SHORT_TERM .MEDIUM none none
              (LongShortTermMemory.mk0 5 1000 "sess")).2).2).2).2).2).2

/-- Six identical-priority entries with increasing timestamps over
`short_term_capacity = 5` (raw over-capacity state for the eviction
characterization). -/
def evictionWitnessState : LongShortTermMemory :=
  { short_term_store :=
      [mkE "i1" .SHORT_TERM 1 .MEDIUM "c" [],
       mkE "i2" .SHORT_TERM 2 .MEDIUM "c" [],
       mkE "i3" .SHORT_TERM 3 .MEDIUM "c" [],
       mkE "i4" .SHORT_TERM 4 .MEDIUM "c" [],
       mkE "i5" .SHORT_TERM 5 .MEDIUM "c" [],
       mkE "i6" .SHORT_TERM 6 .MEDIUM "c" []]
    long_term_store := []
    short_term_capacity := 5
    long_term_capacity := 1000
    current_session := "sess" }

/-- A small populated state for the persistence round trip. -/
def roundTripState : LongShortTermMemory :=
  { short_term_store :=
      [mkE "p1" .SHORT_TERM 1 .LOW "hello there" ctxS1,
       mkE "p2" .SHORT_TERM 2 .HIGH "general memory" ctxS2]
    long_term_store := [mkE "q1" .LONG_TERM 3 .CRITICAL "learned fact" ctxS1]
    short_term_capacity := 100
    long_term_capacity := 1000
    current_session := "sess-original" }

/-- Three short-term entries matching query `x`, empty long-term store:
with the Python limit `-1`, `limit//2 = -1` makes the short-term search
return two entries and the final slice keeps one of them. -/
def negLimitState : LongShortTermMemory :=
  { short_term_store :=
      [mkE "s1" .SHORT_TERM 1 .MEDIUM "x y" [],
       mkE "s2" .SHORT_TERM 2 .MEDIUM "x z" [],
       mkE "s3" .SHORT_TERM 3 .MEDIUM "x w" []]
    long_term_store := []
    short_term_capacity := 100
    long_term_capacity := 1000
    current_session := "sess" }

/-- One matching entry in each store, for the nonnegative-limit retrieval
bound. -/
def smallRetrievalState : LongShortTermMemory :=
  { short_term_store := [mkE "s1" .SHORT_TERM 1 .MEDIUM "x y" []]
    long_term_store := [mkE "l1" .LONG_TERM 2 .MEDIUM "x z" []]
    short_term_capacity := 100
    long_term_capacity := 1000
    current_session := "sess" }

/-- Four session-`s1` entries for the compression scenario. -/
def fourGroupEntries : List MemoryEntry :=
  [mkE "g1" .SHORT_TERM 1 .LOW "one" ctxS1,
   mkE "g2" .SHORT_TERM 2 .MEDIUM "two" ctxS1,
   mkE "g3" .SHORT_TERM 3 .HIGH "three" ctxS1,
   mkE "g4" .SHORT_TERM 4 .HIGH "four" ctxS1]

/-- Inserting permutes to consing. -/
theorem insertLe_perm {α : Type} (le : α → α → Bool) (x : α) (l : List α) :
    (insertLe le x l).Perm (x :: l) := by
  induction l with
  | nil => exact List.Perm.refl _
  | cons y ys ih =>
    rw [insertLe]
    split
    · exact List.Perm.refl _
    · exact (ih.cons y).trans (List.Perm.swap x y ys)

/-- The stable sort permutes its input. -/
theorem stableSort_perm {α : Type} (le : α → α → Bool) (l : List α) :
    (stableSort le l).Perm l := by
  induction l with
  | nil => exact List.Perm.refl _
  | cons a l ih => exact (insertLe_perm le a (stableSort le l)).trans (ih.cons a)

theorem mem_stableSort {α : Type} (le : α → α → Bool) (l : List α) (x : α) :
    x ∈ stableSort le l ↔ x ∈ l :=
  (stableSort_perm le l).mem_iff

theorem length_stableSort {α : Type} (le : α → α → Bool) (l : List α) :
    (stableSort le l).length = l.length :=
  (stableSort_perm le l).length_eq

theorem pySlice_subset {α : Type} (n : Int) (l : List α) (x : α)
    (h : x ∈ pySlice n l) : x ∈ l := by
  unfold pySlice at h
  split at h <;> exact List.take_subset _ _ h

theorem pySlice_zero {α : Type} (l : List α) : pySlice 0 l = [] := by
  simp [pySlice]

/-- Iterated deletion is a single filter by the deleted id set. -/
theorem foldl_storeDelete (L : List MemoryEntry) (st : List MemoryEntry) :
    L.foldl (fun acc m => storeDelete m.id acc) st =
      st.filter (fun e => !(L.any (fun m => decide (e.id = m.id)))) := by
  induction L generalizing st with
  | nil => simp
  | cons a L ih =>
    rw [List.foldl_cons, ih]
    unfold storeDelete
    rw [List.filter_filter]
    apply List.filter_congr
    intro x _
    simp only [List.any_cons, Bool.not_or, decide_not]
    cases h1 : decide (x.id = a.id) <;>
      cases h2 : L.any (fun m => decide (x.id = m.id)) <;> rfl

/-- The added entry is in the store afterwards. -/
theorem mem_storeAdd_self (e : MemoryEntry) (st : List MemoryEntry) :
    e ∈ storeAdd e st := by
  unfold storeAdd
  split
  · rename_i h
    obtain ⟨x, hx, hxe⟩ := List.any_eq_true.mp h
    exact List.mem_map.mpr ⟨x, hx, by simp [of_decide_eq_true hxe]⟩
  · simp

/-- Adding an entry with a different id preserves membership. -/
theorem mem_storeAdd_of_mem {a e : MemoryEntry} (st : List MemoryEntry)
    (h : e ∈ st) (hne : e.id ≠ a.id) : e ∈ storeAdd a st := by
  unfold storeAdd
  split
  · exact List.mem_map.mpr ⟨e, h, by simp [hne]⟩
  · exact List.mem_append_left _ h

/-- An entry stays through a fold of adds if no added entry collides with
its id other than the entry itself. -/
theorem mem_foldl_storeAdd_pres (a : MemoryEntry) (L : List MemoryEntry) :
    ∀ st : List MemoryEntry, a ∈ st → (∀ b ∈ L, b.id = a.id → b = a) →
      a ∈ L.foldl (fun acc m => storeAdd m acc) st := by
  induction L with
  | nil => exact fun st h _ => h
  | cons c L ih =>
    intro st h hL
    rw [List.foldl_cons]
    by_cases hc : c.id = a.id
    · have hca : c = a := hL c (List.mem_cons_self c L) hc
      subst hca
      exact ih (storeAdd c st) (mem_storeAdd_self c st)
        (fun b hb => hL b (List.mem_cons_of_mem c hb))
    · exact ih (storeAdd c st) (mem_storeAdd_of_mem st h (fun he => hc he.symm))
        (fun b hb => hL b (List.mem_cons_of_mem c hb))

/-- Every added entry whose id is unique in the batch ends up in the store. -/
theorem mem_foldl_storeAdd (a : MemoryEntry) (L : List MemoryEntry) :
    ∀ st : List MemoryEntry, a ∈ L → (∀ b ∈ L, b.id = a.id → b = a) →
      a ∈ L.foldl (fun acc m => storeAdd m acc) st := by
  induction L with
  | nil => intro st h; cases h
  | cons c L ih =>
    intro st h hL
    rw [List.foldl_cons]
    rcases List.mem_cons.mp h with rfl | hmem
    · exact mem_foldl_storeAdd_pres a L (storeAdd a st) (mem_storeAdd_self a st)
        (fun b hb => hL b (List.mem_cons_of_mem a hb))
    · exact ih (storeAdd c st) hmem (fun b hb => hL b (List.mem_cons_of_mem c hb))

/-- If the batch ids are duplicate-free, each batch entry is in the result. -/
theorem mem_foldl_storeAdd_of_nodup {a : MemoryEntry} (L : List MemoryEntry)
    (st : List MemoryEntry) (h : a ∈ L)
    (hnd : (L.map MemoryEntry.id).Nodup) :
    a ∈ L.foldl (fun acc m => storeAdd m acc) st :=
  mem_foldl_storeAdd a L st h
    (fun _b hb hid => List.inj_on_of_nodup_map hnd hb h hid)

/-- A deleted id is absent from the post-deletion id list. -/
theorem id_not_mem_after_delete {x : String} (L : List MemoryEntry)
    (st : List MemoryEntry) (h : ∃ m ∈ L, m.id = x) :
    x ∉ (L.foldl (fun acc m => storeDelete m.id acc) st).map MemoryEntry.id := by
  rw [foldl_storeDelete]
  intro hmem
  obtain ⟨e, he, hex⟩ := List.mem_map.mp hmem
  have hpe := (List.mem_filter.mp he).2
  obtain ⟨m, hmL, hmx⟩ := h
  have : L.any (fun m => decide (e.id = m.id)) = true :=
    List.any_eq_true.mpr ⟨m, hmL, by simp [hex, hmx]⟩
  rw [this] at hpe
  cases hpe

/-- Entries whose id avoids the whole deletion batch survive it. -/
theorem mem_after_delete {e : MemoryEntry} (L : List MemoryEntry)
    (st : List MemoryEntry) (h : e ∈ st)
    (hid : ∀ m ∈ L, e.id ≠ m.id) :
    e ∈ L.foldl (fun acc m => storeDelete m.id acc) st := by
  rw [foldl_storeDelete]
  refine List.mem_filter.mpr ⟨h, ?_⟩
  simp only [Bool.not_eq_true']
  exact List.any_eq_false.mpr (fun m hm => by simp [hid m hm])

theorem search_subset (query : String) (limit : Int) (st : List MemoryEntry)
    (x : MemoryEntry) (h : x ∈ InMemoryStore.search query limit st) : x ∈ st := by
  unfold InMemoryStore.search at h
  exact List.mem_of_mem_filter ((mem_stableSort _ _ x).mp (pySlice_subset _ _ x h))

theorem retrieve_relevant_subset (now : ℚ) (query : String) (context : Option Ctx)
    (limit : Int) (store : List MemoryEntry) (x : MemoryEntry)
    (h : x ∈ retrieve_relevant now query context limit store) : x ∈ store := by
  unfold retrieve_relevant at h
  obtain ⟨p, hp, hpx⟩ := List.mem_map.mp h
  have hp2 := (mem_stableSort _ _ p).mp (pySlice_subset _ _ p hp)
  obtain ⟨m, hm, hmp⟩ := List.mem_map.mp hp2
  subst hmp
  subst hpx
  exact search_subset _ _ _ _ hm

/-- Filtering with a predicate rejecting the first `k` elements keeps at
most `length - k` elements. -/
theorem length_filter_le_of_prefix_false {α : Type} (p : α → Bool)
    (srt : List α) (k : ℕ) (h : ∀ a ∈ srt.take k, p a = false) :
    (srt.filter p).length ≤ srt.length - k := by
  conv_lhs => rw [← List.take_append_drop k srt]
  rw [List.filter_append, List.length_append]
  have h1 : (srt.take k).filter p = [] :=
    List.filter_eq_nil_iff.mpr (fun a ha => by simp [h a ha])
  rw [h1]
  simp only [List.length_nil, Nat.zero_add]
  calc ((srt.drop k).filter p).length
      ≤ (srt.drop k).length := List.length_filter_le _ _
    _ = srt.length - k := List.length_drop k srt

/-- Filtering with a predicate rejecting exactly the first `k` elements
keeps exactly `length - k` elements. -/
theorem length_filter_eq_of_prefix {α : Type} (p : α → Bool)
    (srt : List α) (k : ℕ) (hfalse : ∀ a ∈ srt.take k, p a = false)
    (htrue : ∀ a ∈ srt.drop k, p a = true) :
    (srt.filter p).length = srt.length - k := by
  conv_lhs => rw [← List.take_append_drop k srt]
  rw [List.filter_append]
  have h1 : (srt.take k).filter p = [] :=
    List.filter_eq_nil_iff.mpr (fun a ha => by simp [hfalse a ha])
  have h2 : (srt.drop k).filter p = srt.drop k := List.filter_eq_self.mpr htrue
  rw [h1, h2]
  simp [List.length_drop]

/-- The eviction filter of the capacity managers drops at least `k`
entries. -/
theorem length_evict_le (le : MemoryEntry → MemoryEntry → Bool)
    (l : List MemoryEntry) (k : ℕ) :
    (l.filter (fun e =>
      !(((stableSort le l).take k).any (fun m => decide (e.id = m.id))))).length
      ≤ l.length - k := by
  have hperm := ((stableSort_perm le l).filter (fun e =>
    !(((stableSort le l).take k).any (fun m => decide (e.id = m.id))))).length_eq
  rw [← hperm]
  have hpre : ∀ a ∈ (stableSort le l).take k,
      (!(((stableSort le l).take k).any (fun m => decide (a.id = m.id)))) = false := by
    intro a ha
    have : ((stableSort le l).take k).any (fun m => decide (a.id = m.id)) = true :=
      List.any_eq_true.mpr ⟨a, ha, by simp⟩
    simp [this]
  have := length_filter_le_of_prefix_false
    (fun e => !(((stableSort le l).take k).any (fun m => decide (e.id = m.id))))
    (stableSort le l) k hpre
  rwa [length_stableSort] at this

/-- With duplicate-free ids the eviction filter drops exactly `k` entries. -/
theorem length_evict_eq (le : MemoryEntry → MemoryEntry → Bool)
    (l : List MemoryEntry) (k : ℕ)
    (hnd : (l.map MemoryEntry.id).Nodup) :
    (l.filter (fun e =>
      !(((stableSort le l).take k).any (fun m => decide (e.id = m.id))))).length
      = l.length - k := by
  have hperm := ((stableSort_perm le l).filter (fun e =>
    !(((stableSort le l).take k).any (fun m => decide (e.id = m.id))))).length_eq
  rw [← hperm]
  have hids : ((stableSort le l).map MemoryEntry.id).Nodup :=
    ((stableSort_perm le l).map MemoryEntry.id).nodup_iff.mpr hnd
  have hsrt : (stableSort le l).Nodup := hids.of_map
  have hpre : ∀ a ∈ (stableSort le l).take k,
      (!(((stableSort le l).take k).any (fun m => decide (a.id = m.id)))) = false := by
    intro a ha
    have : ((stableSort le l).take k).any (fun m => decide (a.id = m.id)) = true :=
      List.any_eq_true.mpr ⟨a, ha, by simp⟩
    simp [this]
  have hpost : ∀ a ∈ (stableSort le l).drop k,
      (!(((stableSort le l).take k).any (fun m => decide (a.id = m.id)))) = true := by
    intro a ha
    simp only [Bool.not_eq_true', List.any_eq_false]
    intro m hm
    simp only [decide_eq_true_eq]
    intro hidm
    have hma : m = a := List.inj_on_of_nodup_map hids
      (List.take_subset k _ hm) (List.drop_subset k _ ha) hidm.symm
    subst hma
    exact (List.disjoint_take_drop hsrt (Nat.le_refl k)) hm ha
  have := length_filter_eq_of_prefix
    (fun e => !(((stableSort le l).take k).any (fun m => decide (e.id = m.id))))
    (stableSort le l) k hpre hpost
  rwa [length_stableSort] at this

/-- `_manage_short_term_capacity` rewrites the short-term store as a
filter removing the first `length - capacity` entries of the
`(priority, timestamp)`-ascending sort (and only fires over capacity). -/
theorem manage_short_eq (s : LongShortTermMemory)
    (h : s.short_term_capacity < s.short_term_store.length) :
    (manage_short_term_capacity s).short_term_store =
      s.short_term_store.filter (fun e =>
        !(((stableSort shortKeyLe s.short_term_store).take
            (s.short_term_store.length - s.short_term_capacity)).any
          (fun m => decide (e.id = m.id)))) := by
  unfold manage_short_term_capacity
  rw [if_pos h]
  exact foldl_storeDelete _ _

/-- The short-term capacity manager always leaves at most
`short_term_capacity` entries. -/
theorem manage_short_le (s : LongShortTermMemory) :
    (manage_short_term_capacity s).short_term_store.length ≤
      s.short_term_capacity := by
  by_cases h : s.short_term_capacity < s.short_term_store.length
  · rw [manage_short_eq s h]
    have := length_evict_le shortKeyLe s.short_term_store
      (s.short_term_store.length - s.short_term_capacity)
    omega
  · unfold manage_short_term_capacity
    rw [if_neg h]
    omega

/-- `_manage_long_term_capacity` as the analogous filter. -/
theorem manage_long_eq (s : LongShortTermMemory)
    (h : s.long_term_capacity < s.long_term_store.length) :
    (manage_long_term_capacity s).long_term_store =
      s.long_term_store.filter (fun e =>
        !(((stableSort longKeyLe s.long_term_store).take
            (s.long_term_store.length - s.long_term_capacity)).any
          (fun m => decide (e.id = m.id)))) := by
  unfold manage_long_term_capacity
  rw [if_pos h]
  exact foldl_storeDelete _ _

/-- The long-term capacity manager always leaves at most
`long_term_capacity` entries. -/
theorem manage_long_le (s : LongShortTermMemory) :
    (manage_long_term_capacity s).long_term_store.length ≤
      s.long_term_capacity := by
  by_cases h : s.long_term_capacity < s.long_term_store.length
  · rw [manage_long_eq s h]
    have := length_evict_le longKeyLe s.long_term_store
      (s.long_term_store.length - s.long_term_capacity)
    omega
  · unfold manage_long_term_capacity
    rw [if_neg h]
    omega

/-- The short-term manager touches nothing but the short-term store. -/
theorem manage_short_frame (s : LongShortTermMemory) :
    (manage_short_term_capacity s).long_term_store = s.long_term_store ∧
    (manage_short_term_capacity s).short_term_capacity = s.short_term_capacity ∧
    (manage_short_term_capacity s).long_term_capacity = s.long_term_capacity ∧
    (manage_short_term_capacity s).current_session = s.current_session := by
  unfold manage_short_term_capacity
  split <;> exact ⟨rfl, rfl, rfl, rfl⟩

/-- The long-term manager touches nothing but the long-term store. -/
theorem manage_long_frame (s : LongShortTermMemory) :
    (manage_long_term_capacity s).short_term_store = s.short_term_store ∧
    (manage_long_term_capacity s).short_term_capacity = s.short_term_capacity ∧
    (manage_long_term_capacity s).long_term_capacity = s.long_term_capacity ∧
    (manage_long_term_capacity s).current_session = s.current_session := by
  unfold manage_long_term_capacity
  split <;> exact ⟨rfl, rfl, rfl, rfl⟩

/-- One `add_memory` call keeps both stores within capacity and preserves
the capacities. -/
theorem add_memory_inv (freshId : String) (now : ℚ) (content : String)
    (mt : MemoryType) (p : MemoryPriority) (ctx : Option Ctx)
    (tags : Option (List String)) (s : LongShortTermMemory)
    (h1 : s.short_term_store.length ≤ s.short_term_capacity)
    (h2 : s.long_term_store.length ≤ s.long_term_capacity) :
    (add_memory freshId now content mt p ctx tags s).2.short_term_store.length ≤
      (add_memory freshId now content mt p ctx tags s).2.short_term_capacity ∧
    (add_memory freshId now content mt p ctx tags s).2.long_term_store.length ≤
      (add_memory freshId now content mt p ctx tags s).2.long_term_capacity ∧
    (add_memory freshId now content mt p ctx tags s).2.short_term_capacity =
      s.short_term_capacity ∧
    (add_memory freshId now content mt p ctx tags s).2.long_term_capacity =
      s.long_term_capacity := by
  unfold add_memory
  split
  · refine ⟨?_, ?_, ?_, ?_⟩
    · rw [(manage_short_frame _).2.1]
      exact manage_short_le _
    · rw [(manage_short_frame _).1, (manage_short_frame _).2.2.1]
      exact h2
    · exact (manage_short_frame _).2.1
    · exact (manage_short_frame _).2.2.1
  · refine ⟨?_, ?_, ?_, ?_⟩
    · rw [(manage_long_frame _).1, (manage_long_frame _).2.1]
      exact h1
    · rw [(manage_long_frame _).2.2.1]
      exact manage_long_le _
    · exact (manage_long_frame _).2.1
    · exact (manage_long_frame _).2.2.1

/-- Any run of `add_memory` calls keeps both stores within capacity and
preserves the capacities. -/
theorem runAdds_inv : ∀ (calls : List AddCall) (s : LongShortTermMemory),
    s.short_term_store.length ≤ s.short_term_capacity →
    s.long_term_store.length ≤ s.long_term_capacity →
    ((runAdds calls s).short_term_store.length ≤
        (runAdds calls s).short_term_capacity ∧
      (runAdds calls s).long_term_store.length ≤
        (runAdds calls s).long_term_capacity ∧
      (runAdds calls s).short_term_capacity = s.short_term_capacity ∧
      (runAdds calls s).long_term_capacity = s.long_term_capacity) := by
  intro calls
  induction calls with
  | nil => exact fun s h1 h2 => ⟨h1, h2, rfl, rfl⟩
  | cons c calls ih =>
    intro s h1 h2
    have hstep := add_memory_inv c.freshId c.now c.content c.memory_type
      c.priority c.context c.tags s h1 h2
    obtain ⟨a1, a2, a3, a4⟩ := hstep
    have hrw : runAdds (c :: calls) s =
        runAdds calls ((add_memory c.freshId c.now c.content c.memory_type
          c.priority c.context c.tags s).2) := rfl
    rw [hrw]
    obtain ⟨b1, b2, b3, b4⟩ := ih _ a1 a2
    exact ⟨b1, b2, b3.trans a3, b4.trans a4⟩

/-- C2: starting from a freshly constructed `LongShortTermMemory`, after
every `add_memory` call the short-term store holds at most
`short_term_capacity` entries and the long-term store at most
`long_term_capacity` entries (every prefix of a call sequence is itself a
call sequence, so the bound after each call is the bound after an arbitrary
sequence). -/
theorem capacity_invariant (c1 c2 : ℕ) (sess : String) (calls : List AddCall) :
    (runAdds calls (LongShortTermMemory.mk0 c1 c2 sess)).short_term_store.length ≤ c1 ∧
    (runAdds calls (LongShortTermMemory.mk0 c1 c2 sess)).long_term_store.length ≤ c2 := by
  have h := runAdds_inv calls (LongShortTermMemory.mk0 c1 c2 sess)
    (by simp [LongShortTermMemory.mk0]) (by simp [LongShortTermMemory.mk0])
  constructor
  · have hb := h.1
    rw [h.2.2.1] at hb
    exact hb
  · have hb := h.2.1
    rw [h.2.2.2] at hb
    exact hb

/-- C4: when an `add_memory` call overflows the short-term store, the
deleted entries are exactly the excess from the front of the
`(priority.value, timestamp)`-ascending stable sort: the surviving store is
the filter removing those ids, and with duplicate-free ids exactly
`capacity` entries remain.  Concretely, for priorities low/low/high inserted
in that order over capacity 2 the evicted entry is the earliest low one,
and for six identical-priority adds over capacity 5 exactly five remain,
the earliest-timestamp entry being the one removed. -/
theorem eviction_policy :
    (∀ s : LongShortTermMemory,
      s.short_term_capacity < s.short_term_store.length →
      ((manage_short_term_capacity s).short_term_store =
        s.short_term_store.filter (fun e =>
          !(((stableSort shortKeyLe s.short_term_store).take
              (s.short_term_store.length - s.short_term_capacity)).any
            (fun m => decide (e.id = m.id)))) ∧
       ((s.short_term_store.map MemoryEntry.id).Nodup →
        (manage_short_term_capacity s).short_term_store.length =
          s.short_term_capacity))) ∧
    scenarioAState.short_term_store.map MemoryEntry.id = ["i2", "i3"] ∧
    scenarioBState.short_term_store.map MemoryEntry.id =
      ["i2", "i3", "i4", "i5", "i6"] := by
  refine ⟨fun s h => ⟨manage_short_eq s h, fun hnd => ?_⟩, ?_, ?_⟩
  · rw [manage_short_eq s h,
      length_evict_eq shortKeyLe s.short_term_store
        (s.short_term_store.length - s.short_term_capacity) hnd]
    omega
  · decide
  · decide

/-- Witness for the eviction characterization: the six-entry over-capacity
state is trimmed to exactly five entries. -/
theorem eviction_policy_witness :
    (manage_short_term_capacity evictionWitnessState).short_term_store.length = 5 :=
  (eviction_policy.1 evictionWitnessState (by decide)).2 (by decide)

/-- C9: loading from a missing file leaves the whole memory state (both
stores and the session token) exactly as it was. -/
theorem load_missing_file_noop (s : LongShortTermMemory) :
    load_from_file none s = some s := rfl

/-- C7: `summarize` returns the content unchanged when its length is within
`max_length` or the `". "`-split yields at most two sentences; otherwise it
returns `first ++ ". [...] " ++ last ++ "."`; hence it is idempotent (and,
being a pure function, deterministic) on content within `max_length`. -/
theorem summarize_branches (max_length : ℕ) (content : String) :
    (content.length ≤ max_length → summarize max_length content = content) ∧
    ((content.splitOn ". ").length ≤ 2 →
      summarize max_length content = content) ∧
    (max_length < content.length → 2 < (content.splitOn ". ").length →
      summarize max_length content =
        (content.splitOn ". ").headD "" ++ ". [...] " ++
          (content.splitOn ". ").getLastD "" ++ ".") ∧
    (content.length ≤ max_length →
      summarize max_length (summarize max_length content) =
        summarize max_length content) := by
  refine ⟨fun h => by simp [summarize, h], fun h => ?_, fun h1 h2 => ?_, fun h => ?_⟩
  · by_cases hl : content.length ≤ max_length
    · simp [summarize, hl]
    · simp [summarize, hl, h]
  · have hn1 : ¬ content.length ≤ max_length := by omega
    have hn2 : ¬ (content.splitOn ". ").length ≤ 2 := by omega
    simp [summarize, hn1, hn2]
  · have he : summarize max_length content = content := by simp [summarize, h]
    rw [he, he]

/-- C5: the accumulated relevance score of the source equals the closed
formula of the specification (keyword overlap, priority, 30-day recency,
capped frequency, and context-match terms with their weights). -/
theorem relevance_score_eq (now : ℚ) (query : String) (memory : MemoryEntry)
    (context : Option Ctx) :
    calculate_relevance_score now query memory context =
      relevanceScoreSpec now query memory context := by
  have hc : ((30 : ℚ) * 24 * 60 * 60) = (30 : ℚ) * 86400 := by norm_num
  unfold calculate_relevance_score relevanceScoreSpec
  cases context with
  | none =>
    dsimp only
    rw [hc]
    ring
  | some c =>
    dsimp only
    rcases eq_or_ne c [] with rfl | hne
    · rw [if_neg (by simp), if_pos rfl, hc]
      ring
    · rcases eq_or_ne memory.context [] with hm | hm
      · have hcm : contextMatchCount c [] = 0 := by
          simp [contextMatchCount, List.lookup]
        rw [if_neg (by simp [hm]), if_neg hne, hm, hcm, hc]
        push_cast
        ring
      · rw [if_pos ⟨hne, hm⟩, if_neg hne, hc]
        ring

/-- C6: `retrieve_memories` is exactly the specified pipeline: relevance-
ranked long-term results (`limit` candidates), plus the short-term keyword
search (`limit//2` candidates) when requested, re-sorted descending by
`(priority.value, access_count)` and truncated to `limit`. -/
theorem retrieve_memories_pipeline (now : ℚ) (query : String)
    (include_short_term : Bool) (limit : Int) (s : LongShortTermMemory) :
    retrieve_memories now query include_short_term limit s =
      retrieveMemoriesSpec now query include_short_term limit s := by
  unfold retrieve_memories retrieveMemoriesSpec
  cases include_short_term <;> simp

/-- Witness for the summarize branch behaviour: short content unchanged. -/
theorem summarize_branches_witness : summarize 500 "hello" = "hello" :=
  (summarize_branches 500 "hello").1 (by decide)

/-- Serialization round-trips a single entry, provided the entry went
through the constructor normalization (`last_accessed = 0` only when the
timestamp is itself `0`, which `__post_init__` guarantees). -/
theorem from_dict_to_dict (e : MemoryEntry)
    (h : e.last_accessed = 0 → e.timestamp = 0) :
    MemoryEntry.from_dict (MemoryEntry.to_dict e) = some e := by
  have h1 : MemoryType.ofValue e.memory_type.value = some e.memory_type := by
    cases e.memory_type <;> rfl
  have h2 : MemoryPriority.ofValue e.priority.value = some e.priority := by
    cases e.priority <;> rfl
  unfold MemoryEntry.from_dict MemoryEntry.to_dict
  rw [h1, h2]
  dsimp only
  unfold mkMemoryEntry
  cases e
  dsimp only at h ⊢
  split
  · rename_i hla
    rw [h hla, hla]
    rfl
  · rfl

/-- Adding an entry whose id is absent appends it. -/
theorem storeAdd_append (e : MemoryEntry) (st : List MemoryEntry)
    (h : ∀ x ∈ st, x.id ≠ e.id) : storeAdd e st = st ++ [e] := by
  unfold storeAdd
  rw [if_neg]
  intro hany
  obtain ⟨x, hx, hxe⟩ := List.any_eq_true.mp hany
  exact h x hx (of_decide_eq_true hxe)

/-- Loading serialized entries into a store extends it in order, as long as
all ids (existing and incoming) are jointly duplicate-free and each entry
satisfies the constructor normalization. -/
theorem loadEntries_to_dict : ∀ (l : List MemoryEntry) (st : List MemoryEntry),
    (∀ e ∈ l, e.last_accessed = 0 → e.timestamp = 0) →
    (((st ++ l).map MemoryEntry.id).Nodup) →
    loadEntries (l.map MemoryEntry.to_dict) st = some (st ++ l) := by
  intro l
  induction l with
  | nil => intro st _ _; simp [loadEntries]
  | cons a l ih =>
    intro st hpi hnd
    have hfd : MemoryEntry.from_dict (MemoryEntry.to_dict a) = some a :=
      from_dict_to_dict a (hpi a (List.mem_cons_self a l))
    have hadd : storeAdd a st = st ++ [a] := by
      apply storeAdd_append
      intro x hx hxa
      rw [List.map_append, List.nodup_append] at hnd
      have hxid : x.id ∈ st.map MemoryEntry.id := List.mem_map_of_mem _ hx
      have haid : a.id ∈ ((a :: l).map MemoryEntry.id) := by simp
      exact (hnd.2.2 hxid) (hxa ▸ haid)
    have hstep : loadEntries ((a :: l).map MemoryEntry.to_dict) st =
        loadEntries (l.map MemoryEntry.to_dict) (st ++ [a]) := by
      simp [loadEntries, List.foldlM_cons, hfd, hadd]
    rw [hstep, ih (st ++ [a]) (fun e he => hpi e (List.mem_cons_of_mem a he))
      (by rwa [List.append_assoc])]
    rw [List.append_assoc]
    rfl

/-- C3: saving and loading into a fresh instance reproduces both stores
entry-for-entry (so in particular the `(id, content, memory_type, priority,
tags, context)` tuple sets agree, with `timestamp`, `access_count` and
`last_accessed` preserved exactly) and restores the saved session token;
the hypotheses state that the original stores are reachable ones (Python
dicts have duplicate-free ids, and `__post_init__` forbids
`last_accessed = 0` with a nonzero timestamp). -/
theorem persistence_round_trip (s : LongShortTermMemory) (c1 c2 : ℕ)
    (sess : String)
    (hnd1 : (s.short_term_store.map MemoryEntry.id).Nodup)
    (hnd2 : (s.long_term_store.map MemoryEntry.id).Nodup)
    (hpi1 : ∀ e ∈ s.short_term_store, e.last_accessed = 0 → e.timestamp = 0)
    (hpi2 : ∀ e ∈ s.long_term_store, e.last_accessed = 0 → e.timestamp = 0) :
    load_from_file (some (save_to_file s)) (LongShortTermMemory.mk0 c1 c2 sess) =
      some { short_term_store := s.short_term_store
             long_term_store := s.long_term_store
             short_term_capacity := c1
             long_term_capacity := c2
             current_session := s.current_session } := by
  have h1 := loadEntries_to_dict s.short_term_store [] hpi1 (by simpa using hnd1)
  have h2 := loadEntries_to_dict s.long_term_store [] hpi2 (by simpa using hnd2)
  rw [List.nil_append] at h1 h2
  simp [load_from_file, save_to_file, LongShortTermMemory.mk0, h1, h2]

/-- Witness for the persistence round trip on a concrete populated state. -/
theorem persistence_round_trip_witness :
    load_from_file (some (save_to_file roundTripState))
        (LongShortTermMemory.mk0 7 9 "fresh-session") =
      some { short_term_store := roundTripState.short_term_store
             long_term_store := roundTripState.long_term_store
             short_term_capacity := 7
             long_term_capacity := 9
             current_session := "sess-original" } :=
  persistence_round_trip roundTripState 7 9 "fresh-session"
    (by decide) (by decide) (by decide) (by decide)

/-- C8: compressing four entries sharing one session key yields exactly the
synthetic summary (fresh id, timestamp `now`, `long_term`/`medium`, marker
context) followed by the top-2 originals by priority, which are unmodified
members of the input (the model is pure, so the input list is untouched). -/
theorem compress_four_group (fresh : ℕ → String) (now : ℚ)
    (m1 m2 m3 m4 : MemoryEntry) (v : CtxVal)
    (h1 : List.lookup "session" m1.context = some v)
    (h2 : List.lookup "session" m2.context = some v)
    (h3 : List.lookup "session" m3.context = some v)
    (h4 : List.lookup "session" m4.context = some v) :
    compress_memories 500 fresh now [m1, m2, m3, m4] =
      mkSummary (fresh 0) now v [m1, m2, m3, m4] 500 ::
        (stableSort prioGe [m1, m2, m3, m4]).take 2 ∧
    (compress_memories 500 fresh now [m1, m2, m3, m4]).length = 3 ∧
    (∀ x ∈ (stableSort prioGe [m1, m2, m3, m4]).take 2, x ∈ [m1, m2, m3, m4]) := by
  have hk1 : contextKey m1 = v := by simp [contextKey, h1]
  have hk2 : contextKey m2 = v := by simp [contextKey, h2]
  have hk3 : contextKey m3 = v := by simp [contextKey, h3]
  have hk4 : contextKey m4 = v := by simp [contextKey, h4]
  have hmain : compress_memories 500 fresh now [m1, m2, m3, m4] =
      mkSummary (fresh 0) now v [m1, m2, m3, m4] 500 ::
        (stableSort prioGe [m1, m2, m3, m4]).take 2 := by
    have hkeys : firstSeen ([m1, m2, m3, m4].map contextKey) = [v] := by
      simp [hk1, hk2, hk3, hk4, firstSeen]
    have hg : [m1, m2, m3, m4].filter (fun m => decide (contextKey m = v)) =
        [m1, m2, m3, m4] := by
      simp [List.filter, hk1, hk2, hk3, hk4]
    unfold compress_memories
    rw [if_neg (by simp)]
    rw [hkeys]
    unfold compressGroups
    dsimp only
    rw [hg]
    rw [if_pos (by simp)]
    simp [compressGroups]
  refine ⟨hmain, ?_, ?_⟩
  · rw [hmain]
    simp only [List.length_cons, List.length_take, length_stableSort]
    rfl
  · intro x hx
    exact (mem_stableSort _ _ x).mp (List.take_subset _ _ hx)

/-- Witness for the four-entry compression scenario. -/
theorem compress_four_group_witness :
    compress_memories 500 freshU 50 fourGroupEntries =
      mkSummary (freshU 0) 50 (CtxVal.str "s1") fourGroupEntries 500 ::
        (stableSort prioGe fourGroupEntries).take 2 :=
  (compress_four_group freshU 50
    (mkE "g1" .SHORT_TERM 1 .LOW "one" ctxS1)
    (mkE "g2" .SHORT_TERM 2 .MEDIUM "two" ctxS1)
    (mkE "g3" .SHORT_TERM 3 .HIGH "three" ctxS1)
    (mkE "g4" .SHORT_TERM 4 .HIGH "four" ctxS1)
    (CtxVal.str "s1") (by decide) (by decide) (by decide) (by decide)).1

/-- The summary entry's id is the supplied fresh id. -/
theorem mkSummary_id (sid : String) (now : ℚ) (k : CtxVal)
    (g : List MemoryEntry) (mx : ℕ) : (mkSummary sid now k g mx).id = sid := rfl

/-- The summary entry is already typed `long_term`. -/
theorem mkSummary_type (sid : String) (now : ℚ) (k : CtxVal)
    (g : List MemoryEntry) (mx : ℕ) :
    (mkSummary sid now k g mx).memory_type = MemoryType.LONG_TERM := rfl

/-- Every output of the grouping loop is either an input entry whose key is
among the remaining keys, or a synthetic summary of one of those keys with
a fresh index at least the current counter. -/
theorem compressGroups_char (mx : ℕ) (fresh : ℕ → String) (now : ℚ)
    (ms : List MemoryEntry) :
    ∀ (keys : List CtxVal) (c : ℕ) (x : MemoryEntry),
      x ∈ compressGroups mx fresh now ms keys c →
      (x ∈ ms ∧ contextKey x ∈ keys) ∨
        (∃ j k, c ≤ j ∧ k ∈ keys ∧
          x = mkSummary (fresh j) now k
            (ms.filter (fun m => decide (contextKey m = k))) mx) := by
  intro keys
  induction keys with
  | nil => intro c x hx; simp [compressGroups] at hx
  | cons k ks ih =>
    intro c x hx
    rw [compressGroups] at hx
    split at hx
    · rcases List.mem_append.mp hx with hx1 | hx2
      · rcases List.mem_cons.mp hx1 with rfl | hx3
        · right
          exact ⟨c, k, Nat.le_refl c, List.mem_cons_self k ks, rfl⟩
        · left
          have hxg := (mem_stableSort prioGe _ x).mp (List.take_subset _ _ hx3)
          have hkey : contextKey x = k :=
            of_decide_eq_true (List.mem_filter.mp hxg).2
          exact ⟨List.mem_of_mem_filter hxg, by rw [hkey]; exact List.mem_cons_self k ks⟩
      · rcases ih (c + 1) x hx2 with ⟨hms, hkeys⟩ | ⟨j, k2, hj, hk2, hxeq⟩
        · exact Or.inl ⟨hms, List.mem_cons_of_mem k hkeys⟩
        · exact Or.inr ⟨j, k2, by omega, List.mem_cons_of_mem k hk2, hxeq⟩
    · rcases List.mem_append.mp hx with hx1 | hx2
      · have hkey : contextKey x = k :=
          of_decide_eq_true (List.mem_filter.mp hx1).2
        exact Or.inl ⟨List.mem_of_mem_filter hx1,
          by rw [hkey]; exact List.mem_cons_self k ks⟩
      · rcases ih c x hx2 with ⟨hms, hkeys⟩ | ⟨j, k2, hj, hk2, hxeq⟩
        · exact Or.inl ⟨hms, List.mem_cons_of_mem k hkeys⟩
        · exact Or.inr ⟨j, k2, hj, List.mem_cons_of_mem k hk2, hxeq⟩

/-- Id-level corollary of the characterization. -/
theorem compressGroups_id_char (mx : ℕ) (fresh : ℕ → String) (now : ℚ)
    (ms : List MemoryEntry) (keys : List CtxVal) (c : ℕ) (x : MemoryEntry)
    (hx : x ∈ compressGroups mx fresh now ms keys c) :
    x.id ∈ ms.map MemoryEntry.id ∨ ∃ j, c ≤ j ∧ x.id = fresh j := by
  rcases compressGroups_char mx fresh now ms keys c x hx with ⟨hms, _⟩ | ⟨j, k, hj, _, hxeq⟩
  · exact Or.inl (List.mem_map_of_mem _ hms)
  · exact Or.inr ⟨j, hj, by rw [hxeq, mkSummary_id]⟩

/-- With duplicate-free input ids, an injective fresh-id supply, and fresh
ids distinct from every input id, the grouping loop emits entries with
duplicate-free ids. -/
theorem compressGroups_ids_nodup (mx : ℕ) (fresh : ℕ → String) (now : ℚ)
    (ms : List MemoryEntry)
    (Hnd : (ms.map MemoryEntry.id).Nodup)
    (Hinj : ∀ i j, fresh i = fresh j → i = j)
    (Hfm : ∀ j, fresh j ∉ ms.map MemoryEntry.id) :
    ∀ (keys : List CtxVal) (c : ℕ), keys.Nodup →
      ((compressGroups mx fresh now ms keys c).map MemoryEntry.id).Nodup := by
  intro keys
  induction keys with
  | nil => intro c _; simp [compressGroups]
  | cons k ks ih =>
    intro c hkeys
    have hksnd : ks.Nodup := (List.nodup_cons.mp hkeys).2
    have hknotin : k ∉ ks := (List.nodup_cons.mp hkeys).1
    have hgids_nd :
        ((ms.filter (fun m => decide (contextKey m = k))).map MemoryEntry.id).Nodup :=
      Hnd.sublist ((List.filter_sublist _).map MemoryEntry.id)
    have hsort_nd :
        ((stableSort prioGe (ms.filter (fun m => decide (contextKey m = k)))).map
          MemoryEntry.id).Nodup :=
      ((stableSort_perm prioGe _).map MemoryEntry.id).nodup_iff.mpr hgids_nd
    have hT2_nd :
        (((stableSort prioGe (ms.filter (fun m => decide (contextKey m = k)))).take 2).map
          MemoryEntry.id).Nodup :=
      hsort_nd.sublist ((List.take_sublist 2 _).map MemoryEntry.id)
    have hT2_mem : ∀ y ∈ (stableSort prioGe
        (ms.filter (fun m => decide (contextKey m = k)))).take 2,
        y ∈ ms ∧ contextKey y = k := by
      intro y hy
      have hyg := (mem_stableSort prioGe _ y).mp (List.take_subset _ _ hy)
      exact ⟨List.mem_of_mem_filter hyg,
        of_decide_eq_true (List.mem_filter.mp hyg).2⟩
    rw [compressGroups]
    split
    · rename_i hbig
      rw [List.map_append, List.map_cons, List.cons_append, List.nodup_cons]
      constructor
      · rw [mkSummary_id]
        intro hmem
        rcases List.mem_append.mp hmem with hT | hR
        · obtain ⟨y, hy, hyid⟩ := List.mem_map.mp hT
          exact Hfm c (hyid ▸ List.mem_map_of_mem _ (hT2_mem y hy).1)
        · obtain ⟨y, hy, hyid⟩ := List.mem_map.mp hR
          rcases compressGroups_id_char mx fresh now ms ks (c + 1) y hy with hin | ⟨j, hj, hjid⟩
          · rw [hyid] at hin
            exact Hfm c hin
          · have : j = c := Hinj j c (by rw [← hjid, hyid])
            omega
      · rw [List.nodup_append]
        refine ⟨hT2_nd, ih (c + 1) hksnd, ?_⟩
        intro a haT haR
        obtain ⟨y, hy, hya⟩ := List.mem_map.mp haT
        obtain ⟨z, hz, hza⟩ := List.mem_map.mp haR
        obtain ⟨hyms, hyk⟩ := hT2_mem y hy
        rcases compressGroups_char mx fresh now ms ks (c + 1) z hz with
          ⟨hzms, hzkeys⟩ | ⟨j, k2, hj, hk2, hzeq⟩
        · have hyz : y = z :=
            List.inj_on_of_nodup_map Hnd hyms hzms (hya.trans hza.symm)
          subst hyz
          rw [hyk] at hzkeys
          exact hknotin hzkeys
        · have hzid : z.id = fresh j := by rw [hzeq, mkSummary_id]
          have : fresh j ∈ ms.map MemoryEntry.id := by
            rw [← hzid, hza, ← hya]
            exact List.mem_map_of_mem _ hyms
          exact Hfm j this
    · rw [List.map_append, List.nodup_append]
      refine ⟨hgids_nd, ih c hksnd, ?_⟩
      intro a haG haR
      obtain ⟨y, hy, hya⟩ := List.mem_map.mp haG
      have hyms : y ∈ ms := List.mem_of_mem_filter hy
      have hyk : contextKey y = k := of_decide_eq_true (List.mem_filter.mp hy).2
      obtain ⟨z, hz, hza⟩ := List.mem_map.mp haR
      rcases compressGroups_char mx fresh now ms ks c z hz with
        ⟨hzms, hzkeys⟩ | ⟨j, k2, hj, hk2, hzeq⟩
      · have hyz : y = z :=
          List.inj_on_of_nodup_map Hnd hyms hzms (hya.trans hza.symm)
        subst hyz
        rw [hyk] at hzkeys
        exact hknotin hzkeys
      · have hzid : z.id = fresh j := by rw [hzeq, mkSummary_id]
        have : fresh j ∈ ms.map MemoryEntry.id := by
          rw [← hzid, hza, ← hya]
          exact List.mem_map_of_mem _ hyms
        exact Hfm j this

/-- An input entry of a group of at most three members passes through the
grouping loop. -/
theorem compressGroups_mem_small (mx : ℕ) (fresh : ℕ → String) (now : ℚ)
    (ms : List MemoryEntry) :
    ∀ (keys : List CtxVal) (c : ℕ) (x : MemoryEntry), x ∈ ms →
      contextKey x ∈ keys →
      (ms.filter (fun m => decide (contextKey m = contextKey x))).length ≤ 3 →
      x ∈ compressGroups mx fresh now ms keys c := by
  intro keys
  induction keys with
  | nil => intro c x _ h _; simp at h
  | cons k ks ih =>
    intro c x hxms hxkeys hsmall
    rw [compressGroups]
    by_cases hk : contextKey x = k
    · subst hk
      split
    
      · rename_i hbig
        omega
      · exact List.mem_append_left _ (List.mem_filter.mpr ⟨hxms, by simp⟩)
    · have hxks : contextKey x ∈ ks := by
        rcases List.mem_cons.mp hxkeys with h | h
        · exact absurd h hk
        · exact h
      split
      · exact List.mem_append_right _ (ih (c + 1) x hxms hxks hsmall)
      · exact List.mem_append_right _ (ih c x hxms hxks hsmall)

/-- A top-2 member of a large group is kept by the grouping loop. -/
theorem compressGroups_mem_top2 (mx : ℕ) (fresh : ℕ → String) (now : ℚ)
    (ms : List MemoryEntry) :
    ∀ (keys : List CtxVal) (c : ℕ) (x : MemoryEntry), x ∈ ms →
      contextKey x ∈ keys →
      x ∈ (stableSort prioGe
        (ms.filter (fun m => decide (contextKey m = contextKey x)))).take 2 →
      x ∈ compressGroups mx fresh now ms keys c := by
  intro keys
  induction keys with
  | nil => intro c x _ h _; simp at h
  | cons k ks ih =>
    intro c x hxms hxkeys htop
    rw [compressGroups]
    by_cases hk : contextKey x = k
    · subst hk
      split
      · exact List.mem_append_left _ (List.mem_cons_of_mem _ htop)
      · exact List.mem_append_left _ (List.mem_filter.mpr ⟨hxms, by simp⟩)
    · have hxks : contextKey x ∈ ks := by
        rcases List.mem_cons.mp hxkeys with h | h
        · exact absurd h hk
        · exact h
      split
      · exact List.mem_append_right _ (ih (c + 1) x hxms hxks htop)
      · exact List.mem_append_right _ (ih c x hxms hxks htop)

/-- Every large group among the keys gets its synthetic summary emitted. -/
theorem compressGroups_summary_mem (mx : ℕ) (fresh : ℕ → String) (now : ℚ)
    (ms : List MemoryEntry) :
    ∀ (keys : List CtxVal) (c : ℕ) (k : CtxVal), k ∈ keys →
      3 < (ms.filter (fun m => decide (contextKey m = k))).length →
      ∃ j, mkSummary (fresh j) now k
          (ms.filter (fun m => decide (contextKey m = k))) mx ∈
        compressGroups mx fresh now ms keys c := by
  intro keys
  induction keys with
  | nil => intro c k h _; simp at h
  | cons k0 ks ih =>
    intro c k hk hbig
    rw [compressGroups]
    rcases List.mem_cons.mp hk with rfl | hks
    · rw [if_pos hbig]
      exact ⟨c, List.mem_append_left _ (List.mem_cons_self _ _)⟩
    · split
      · obtain ⟨j, hj⟩ := ih (c + 1) k hks hbig
        exact ⟨j, List.mem_append_right _ hj⟩
      · obtain ⟨j, hj⟩ := ih c k hks hbig
        exact ⟨j, List.mem_append_right _ hj⟩

/-- A non-top-2 member of a large group is dropped by the grouping loop. -/
theorem compressGroups_not_mem (mx : ℕ) (fresh : ℕ → String) (now : ℚ)
    (ms : List MemoryEntry)
    (Hfm : ∀ j, fresh j ∉ ms.map MemoryEntry.id) :
    ∀ (keys : List CtxVal) (c : ℕ) (x : MemoryEntry), x ∈ ms →
      3 < (ms.filter (fun m => decide (contextKey m = contextKey x))).length →
      x ∉ (stableSort prioGe
        (ms.filter (fun m => decide (contextKey m = contextKey x)))).take 2 →
      x ∉ compressGroups mx fresh now ms keys c := by
  intro keys
  induction keys with
  | nil => intro c x _ _ _ h; simp [compressGroups] at h
  | cons k ks ih =>
    intro c x hxms hbig htop2 hx
    rw [compressGroups] at hx
    split at hx
    · rcases List.mem_append.mp hx with h1 | h2
      · rcases List.mem_cons.mp h1 with heq | hT
        · have hxid : x.id = fresh c := by rw [heq, mkSummary_id]
          exact Hfm c (hxid ▸ List.mem_map_of_mem _ hxms)
        · by_cases hk : contextKey x = k
          · subst hk
            exact htop2 hT
          · have hxg := (mem_stableSort prioGe _ x).mp (List.take_subset _ _ hT)
            exact hk (of_decide_eq_true (List.mem_filter.mp hxg).2)
      · exact ih (c + 1) x hxms hbig htop2 h2
    · rcases List.mem_append.mp hx with h1 | h2
      · by_cases hk : contextKey x = k
        · subst hk
          rename_i hsmall
          omega
        · exact hk (of_decide_eq_true (List.mem_filter.mp h1).2)
      · exact ih c x hxms hbig htop2 h2

/-- Not even the id of a dropped large-group member survives the grouping
loop. -/
theorem compressGroups_id_not_mem (mx : ℕ) (fresh : ℕ → String) (now : ℚ)
    (ms : List MemoryEntry)
    (Hnd : (ms.map MemoryEntry.id).Nodup)
    (Hfm : ∀ j, fresh j ∉ ms.map MemoryEntry.id)
    (keys : List CtxVal) (c : ℕ) (x : MemoryEntry) (hxms : x ∈ ms)
    (hbig : 3 < (ms.filter (fun m => decide (contextKey m = contextKey x))).length)
    (htop2 : x ∉ (stableSort prioGe
      (ms.filter (fun m => decide (contextKey m = contextKey x)))).take 2) :
    x.id ∉ (compressGroups mx fresh now ms keys c).map MemoryEntry.id := by
  intro hmem
  obtain ⟨y, hy, hyid⟩ := List.mem_map.mp hmem
  rcases compressGroups_char mx fresh now ms keys c y hy with
    ⟨hyms, _⟩ | ⟨j, k2, _, _, hyeq⟩
  · have hyx : y = x := List.inj_on_of_nodup_map Hnd hyms hxms hyid
    subst hyx
    exact compressGroups_not_mem mx fresh now ms Hfm keys c y hyms hbig htop2 hy
  · have : y.id = fresh j := by rw [hyeq, mkSummary_id]
    rw [this] at hyid
    exact Hfm j (hyid ▸ List.mem_map_of_mem _ hxms)

/-- `firstSeen` keeps exactly the elements of the input. -/
theorem mem_firstSeen (x : CtxVal) (l : List CtxVal) :
    x ∈ firstSeen l ↔ x ∈ l := by
  induction l with
  | nil => simp [firstSeen]
  | cons k ks ih =>
    rw [firstSeen]
    simp only [List.mem_cons, List.mem_filter, ih, decide_eq_true_eq]
    constructor
    · rintro (rfl | ⟨h, _⟩)
      · exact Or.inl rfl
      · exact Or.inr h
    · rintro (rfl | h)
      · exact Or.inl rfl
      · by_cases hk : x = k
        · exact Or.inl hk
        · exact Or.inr ⟨h, hk⟩

/-- `firstSeen` emits duplicate-free keys. -/
theorem firstSeen_nodup (l : List CtxVal) : (firstSeen l).Nodup := by
  induction l with
  | nil => simp [firstSeen]
  | cons k ks ih =>
    rw [firstSeen, List.nodup_cons]
    constructor
    · intro h
      have h2 := (List.mem_filter.mp h).2
      simp at h2
    · exact ih.filter _

/-- Retyping to `long_term` keeps the id. -/
theorem retype_id (m : MemoryEntry) :
    ({ m with memory_type := MemoryType.LONG_TERM } : MemoryEntry).id = m.id := rfl

/-- Retyping an already-`long_term` entry is the identity. -/
theorem retype_eq_self (m : MemoryEntry)
    (h : m.memory_type = MemoryType.LONG_TERM) :
    ({ m with memory_type := MemoryType.LONG_TERM } : MemoryEntry) = m := by
  cases m
  dsimp only at h
  rw [h]

/-- Retyping a batch keeps the id list. -/
theorem retype_map_ids (L : List MemoryEntry) :
    ((L.map (fun m => { m with memory_type := MemoryType.LONG_TERM })).map
      MemoryEntry.id) = L.map MemoryEntry.id := by
  rw [List.map_map]
  rfl

/-- `compress_memories` keeps ids duplicate-free. -/
theorem compress_memories_ids_nodup (mx : ℕ) (fresh : ℕ → String) (now : ℚ)
    (ms : List MemoryEntry)
    (Hnd : (ms.map MemoryEntry.id).Nodup)
    (Hinj : ∀ i j, fresh i = fresh j → i = j)
    (Hfm : ∀ j, fresh j ∉ ms.map MemoryEntry.id) :
    ((compress_memories mx fresh now ms).map MemoryEntry.id).Nodup := by
  unfold compress_memories
  split
  · exact Hnd
  · exact compressGroups_ids_nodup mx fresh now ms Hnd Hinj Hfm _ 0
      (firstSeen_nodup _)

/-- An input entry whose batch is small, whose group is small, or which is
among its group's top-2 appears in the compressed output. -/
theorem compress_mem (mx : ℕ) (fresh : ℕ → String) (now : ℚ)
    (ms : List MemoryEntry) (x : MemoryEntry) (hx : x ∈ ms)
    (h : ms.length ≤ 3 ∨
      (ms.filter (fun m => decide (contextKey m = contextKey x))).length ≤ 3 ∨
      x ∈ (stableSort prioGe
        (ms.filter (fun m => decide (contextKey m = contextKey x)))).take 2) :
    x ∈ compress_memories mx fresh now ms := by
  unfold compress_memories
  split
  · exact hx
  · rename_i hlen
    have hkey : contextKey x ∈ firstSeen (ms.map contextKey) :=
      (mem_firstSeen _ _).mpr (List.mem_map_of_mem _ hx)
    rcases h with h | h | h
    · exact absurd h hlen
    · exact compressGroups_mem_small mx fresh now ms _ 0 x hx hkey h
    · exact compressGroups_mem_top2 mx fresh now ms _ 0 x hx hkey h

/-- A large group contributes its synthetic summary to the compressed
output. -/
theorem compress_summary_mem (mx : ℕ) (fresh : ℕ → String) (now : ℚ)
    (ms : List MemoryEntry) (x : MemoryEntry) (hx : x ∈ ms)
    (hbig : 3 < (ms.filter (fun m => decide (contextKey m = contextKey x))).length) :
    ∃ j, mkSummary (fresh j) now (contextKey x)
        (ms.filter (fun m => decide (contextKey m = contextKey x))) mx ∈
      compress_memories mx fresh now ms := by
  unfold compress_memories
  split
  · rename_i hlen
    have := List.length_filter_le (fun m => decide (contextKey m = contextKey x)) ms
    omega
  · exact compressGroups_summary_mem mx fresh now ms _ 0 (contextKey x)
      ((mem_firstSeen _ _).mpr (List.mem_map_of_mem _ hx)) hbig

/-- The id of a dropped large-group member is absent from the compressed
output. -/
theorem compress_id_not_mem (mx : ℕ) (fresh : ℕ → String) (now : ℚ)
    (ms : List MemoryEntry)
    (Hnd : (ms.map MemoryEntry.id).Nodup)
    (Hfm : ∀ j, fresh j ∉ ms.map MemoryEntry.id)
    (x : MemoryEntry) (hx : x ∈ ms)
    (hbig : 3 < (ms.filter (fun m => decide (contextKey m = contextKey x))).length)
    (htop2 : x ∉ (stableSort prioGe
      (ms.filter (fun m => decide (contextKey m = contextKey x)))).take 2) :
    x.id ∉ (compress_memories mx fresh now ms).map MemoryEntry.id := by
  unfold compress_memories
  split
  · rename_i hlen
    have := List.length_filter_le (fun m => decide (contextKey m = contextKey x)) ms
    omega
  · exact compressGroups_id_not_mem mx fresh now ms Hnd Hfm _ 0 x hx hbig htop2

/-- The long-term store after a triggered consolidation. -/
theorem consolidate_long_eq (s : LongShortTermMemory) (fresh : ℕ → String)
    (now : ℚ) (Htr : 4 * s.short_term_capacity < 5 * s.short_term_store.length) :
    (consolidate_memories fresh now s).long_term_store =
      ((compress_memories 500 fresh now (toConsolidate s)).map
        (fun m => { m with memory_type := MemoryType.LONG_TERM })).foldl
        (fun st m => storeAdd m st) s.long_term_store := by
  simp only [consolidate_memories, toConsolidate]
  rw [if_pos Htr]

/-- The short-term store after a triggered consolidation. -/
theorem consolidate_short_eq (s : LongShortTermMemory) (fresh : ℕ → String)
    (now : ℚ) (Htr : 4 * s.short_term_capacity < 5 * s.short_term_store.length) :
    (consolidate_memories fresh now s).short_term_store =
      ((compress_memories 500 fresh now (toConsolidate s)).map
        (fun m => { m with memory_type := MemoryType.LONG_TERM })).foldl
        (fun st m => storeDelete m.id st) s.short_term_store := by
  simp only [consolidate_memories, toConsolidate]
  rw [if_pos Htr]

/-- C1 (amended): when consolidation triggers, every entry of the oldest
`int(0.3*capacity)` batch whose consolidated output contains it — the whole
batch when it has at most three entries, the members of session groups of
at most three entries, and the top-2 (by priority) members of larger groups
— is moved: it lands (retyped `long_term`) in the long-term store and its
id leaves the short-term store.  Every larger group also gets a synthetic
summary entry in the long-term store.  But a batch entry of a group of more
than three members that is not among its group's top-2 stays in the
short-term store: only compression outputs are deleted, not all fed-in
originals. -/
theorem consolidate_moves (s : LongShortTermMemory) (fresh : ℕ → String)
    (now : ℚ)
    (Hnd : (s.short_term_store.map MemoryEntry.id).Nodup)
    (Hinj : ∀ i j, fresh i = fresh j → i = j)
    (Hfm : ∀ j, fresh j ∉ s.short_term_store.map MemoryEntry.id)
    (Htr : 4 * s.short_term_capacity < 5 * s.short_term_store.length) :
    ∀ m ∈ toConsolidate s,
      ((toConsolidate s).length ≤ 3 ∨
          (sessionGroup (toConsolidate s) m).length ≤ 3 ∨
          m ∈ (stableSort prioGe (sessionGroup (toConsolidate s) m)).take 2 →
        ({ m with memory_type := MemoryType.LONG_TERM } ∈
            (consolidate_memories fresh now s).long_term_store ∧
          m.id ∉ (consolidate_memories fresh now s).short_term_store.map
            MemoryEntry.id)) ∧
      (3 < (sessionGroup (toConsolidate s) m).length →
        (∃ j, mkSummary (fresh j) now (contextKey m)
            (sessionGroup (toConsolidate s) m) 500 ∈
          (consolidate_memories fresh now s).long_term_store) ∧
        (m ∉ (stableSort prioGe (sessionGroup (toConsolidate s) m)).take 2 →
          m ∈ (consolidate_memories fresh now s).short_term_store)) := by
  intro m hm
  have hm_short : m ∈ s.short_term_store :=
    (mem_stableSort tsLe _ m).mp (List.take_subset _ _ hm)
  have Hnd_tc : ((toConsolidate s).map MemoryEntry.id).Nodup :=
    (((stableSort_perm tsLe _).map MemoryEntry.id).nodup_iff.mpr Hnd).sublist
      ((List.take_sublist _ _).map MemoryEntry.id)
  have Hfm_tc : ∀ j, fresh j ∉ (toConsolidate s).map MemoryEntry.id := by
    intro j hj
    obtain ⟨y, hy, hyid⟩ := List.mem_map.mp hj
    have hy_short : y ∈ s.short_term_store :=
      (mem_stableSort tsLe _ y).mp (List.take_subset _ _ hy)
    exact Hfm j (hyid ▸ List.mem_map_of_mem _ hy_short)
  have hCPnd : (((compress_memories 500 fresh now (toConsolidate s)).map
      (fun x => { x with memory_type := MemoryType.LONG_TERM })).map
        MemoryEntry.id).Nodup := by
    rw [retype_map_ids]
    exact compress_memories_ids_nodup 500 fresh now _ Hnd_tc Hinj Hfm_tc
  constructor
  · intro hcase
    have hx_comp : m ∈ compress_memories 500 fresh now (toConsolidate s) := by
      apply compress_mem 500 fresh now _ m hm
      simpa [sessionGroup] using hcase
    have hx_CP : ({ m with memory_type := MemoryType.LONG_TERM } : MemoryEntry) ∈
        (compress_memories 500 fresh now (toConsolidate s)).map
          (fun x => { x with memory_type := MemoryType.LONG_TERM }) :=
      List.mem_map_of_mem _ hx_comp
    constructor
    · rw [consolidate_long_eq s fresh now Htr]
      exact mem_foldl_storeAdd_of_nodup _ _ hx_CP hCPnd
    · rw [consolidate_short_eq s fresh now Htr]
      exact id_not_mem_after_delete _ _
        ⟨{ m with memory_type := MemoryType.LONG_TERM }, hx_CP, rfl⟩
  · intro hbig
    have hbig2 : 3 < ((toConsolidate s).filter
        (fun x => decide (contextKey x = contextKey m))).length := by
      simpa [sessionGroup] using hbig
    constructor
    · obtain ⟨j, hsum⟩ := compress_summary_mem 500 fresh now _ m hm hbig2
      refine ⟨j, ?_⟩
      rw [consolidate_long_eq s fresh now Htr]
      simp only [sessionGroup]
      have h1 := List.mem_map_of_mem
        (fun x => ({ x with memory_type := MemoryType.LONG_TERM } : MemoryEntry)) hsum
      dsimp only at h1
      rw [retype_eq_self _ (mkSummary_type _ _ _ _ _)] at h1
      exact mem_foldl_storeAdd_of_nodup _ _ h1 hCPnd
    · intro htop2
      have htop2b : m ∉ (stableSort prioGe ((toConsolidate s).filter
          (fun x => decide (contextKey x = contextKey m)))).take 2 := by
        simpa [sessionGroup] using htop2
      have hidnot : m.id ∉ ((compress_memories 500 fresh now
          (toConsolidate s)).map
            (fun x => { x with memory_type := MemoryType.LONG_TERM })).map
          MemoryEntry.id := by
        rw [retype_map_ids]
        exact compress_id_not_mem 500 fresh now _ Hnd_tc Hfm_tc m hm hbig2 htop2b
      rw [consolidate_short_eq s fresh now Htr]
      apply mem_after_delete _ _ hm_short
      intro y hy hmy
      exact hidnot (hmy ▸ List.mem_map_of_mem _ hy)

/-- The fresh-id supply `freshU` is injective. -/
theorem freshU_inj : ∀ i j : ℕ, freshU i = freshU j → i = j := by
  intro i j h
  have h2 : List.replicate (i + 1) 'u' = List.replicate (j + 1) 'u' :=
    congrArg String.data h
  have h3 := congrArg List.length h2
  simpa using h3

/-- `freshU` never produces a string free of the character `u`. -/
theorem freshU_ne (j : ℕ) (s : String) (h : 'u' ∉ s.data) : freshU j ≠ s := by
  intro he
  have h2 : List.replicate (j + 1) 'u' = s.data := congrArg String.data he
  apply h
  rw [← h2]
  exact List.mem_replicate.mpr ⟨Nat.succ_ne_zero j, rfl⟩

/-- `freshU` avoids all ids of the consolidation witness state. -/
theorem freshU_notin_witness : ∀ j,
    freshU j ∉ consolidateWitnessState.short_term_store.map MemoryEntry.id := by
  intro j hj
  simp only [consolidateWitnessState, mkE, List.map_cons, List.map_nil,
    List.mem_cons, List.not_mem_nil, or_false] at hj
  rcases hj with h | h | h | h
  · exact freshU_ne j "a" (by decide) h
  · exact freshU_ne j "b" (by decide) h
  · exact freshU_ne j "c" (by decide) h
  · exact freshU_ne j "d" (by decide) h

/-- Witness for the amended consolidation behaviour: in the four-entry
state with capacity 4, the single-entry consolidation batch is moved — the
oldest entry lands retyped in the long-term store and its id leaves the
short-term store. -/
theorem consolidate_moves_witness :
    ({ mkE "a" .SHORT_TERM 1 .MEDIUM "wa" [] with
        memory_type := MemoryType.LONG_TERM } ∈
      (consolidate_memories freshU 50 consolidateWitnessState).long_term_store) ∧
    "a" ∉ (consolidate_memories freshU 50
      consolidateWitnessState).short_term_store.map MemoryEntry.id := by
  have h := consolidate_moves consolidateWitnessState freshU 50
    (by decide) freshU_inj freshU_notin_witness (by decide)
    (mkE "a" .SHORT_TERM 1 .MEDIUM "wa" []) (by decide)
  exact h.1 (Or.inl (by decide))

/-- C1 counterexample: in the capacity-14 state with 12 short-term entries
whose oldest four share session `s1`, consolidation triggers, the entry
`m1` is in the consolidated batch, yet after `consolidate_memories()` it
still exists in the short-term store (only compression outputs are deleted,
and `m1` is not among its group's top-2). -/
theorem consolidate_claim_counterexample :
    4 * consolidateCounterState.short_term_capacity <
      5 * consolidateCounterState.short_term_store.length ∧
    mkE "m1" .SHORT_TERM 1 .LOW "a" ctxS1 ∈ toConsolidate consolidateCounterState ∧
    "m1" ∈ (consolidate_memories freshU 100
      consolidateCounterState).short_term_store.map MemoryEntry.id := by
  refine ⟨by decide, by decide, by decide⟩

/-- C10 counterexample: with the Python `int` limit `-1` (which satisfies
`limit <= 1`), `retrieve_memories` on a state with three matching
short-term entries and an empty long-term store returns a short-term
entry: `limit//2 = -1`, so the short-term search keeps all but its last
result instead of none. -/
theorem retrieve_neg_limit_counterexample :
    ((-1 : Int) ≤ 1) ∧
    (retrieve_memories 0 "x" true (-1) negLimitState).any
      (fun e => decide (e ∈ negLimitState.short_term_store)) = true := by
  refine ⟨by decide, by decide⟩

/-- C10 (amended): for `0 ≤ limit ≤ 1`, `retrieve_memories` with
`include_short_term = true` returns only entries of the long-term store,
because the short-term search is invoked with `limit//2 = 0` candidates;
for negative limits Python floor division and negative slicing can surface
short-term entries. -/
theorem retrieve_limit_le_one (now : ℚ) (query : String) (limit : Int)
    (s : LongShortTermMemory) (h0 : 0 ≤ limit) (h1 : limit ≤ 1) :
    ∀ e ∈ retrieve_memories now query true limit s, e ∈ s.long_term_store := by
  intro e he
  have hfd : Int.fdiv limit 2 = 0 := by
    interval_cases limit <;> rfl
  have hsearch : InMemoryStore.search query 0 s.short_term_store = [] := by
    unfold InMemoryStore.search
    simp [pySlice]
  simp only [retrieve_memories, if_true, List.nil_append] at he
  rw [hfd, hsearch, List.append_nil] at he
  exact retrieve_relevant_subset _ _ _ _ _ e
    ((mem_stableSort _ _ e).mp (pySlice_subset _ _ e he))

/-- Witness for the nonnegative-limit retrieval bound: at `limit = 1` on a
state with one matching entry in each store, every returned entry is a
long-term one. -/
theorem retrieve_limit_le_one_witness :
    (retrieve_memories 0 "x" true 1 smallRetrievalState).all
      (fun e => decide (e ∈ smallRetrievalState.long_term_store)) = true := by
  have h := retrieve_limit_le_one 0 "x" 1 smallRetrievalState
    (by decide) (by decide)
  exact List.all_eq_true.mpr (fun e he => decide_eq_true (h e he))
